import Mathlib

/-!
Verification of the KERO real-time vocal-pitch scoring engine
(`src/frontend/components/game/PerfectScoreGame.tsx`).

The engine's mutable refs are gathered into a `GameState`; one invocation of
the per-frame `loop` callback becomes the function `loop` below, taking the
current playback time `now` and the analyser output for this frame as inputs.
JavaScript numbers are modelled as real numbers; the canvas-drawing part of
the frame callback (lines 434-711 of the source) reads but never writes the
scoring state and is therefore not part of the state transition.
-/

noncomputable section

/-- Judgement tiers; the source uses the strings
"PERFECT" / "GREAT" / "GOOD" / "MISS". -/
inductive Judgement where
  | PERFECT
  | GREAT
  | GOOD
  | MISS
deriving DecidableEq

/-- A note identity: the source keys its maps by the string
`lineIndex-wordIndex`; we keep the pair itself. -/
abbrev Key := ℕ × ℕ

/-- `word` entry of a lyrics line (interface `LyricsWord`); `midi` is the
optional target pitch (`midi?: number`). -/
structure LyricsWord where
  startTime : ℝ
  endTime : ℝ
  midi : Option ℝ

/-- A lyrics line (interface `LyricsLine`). -/
structure LyricsLine where
  startTime : ℝ
  endTime : ℝ
  words : List LyricsWord

/-- A flattened scheduled note as built by the `words` memo (source lines
86-97): a word together with its `lineIndex` and `wordIndex`. -/
structure IndexedWord where
  startTime : ℝ
  endTime : ℝ
  midi : ℝ
  lineIndex : ℕ
  wordIndex : ℕ

/-- The composite identity `(lineIndex, wordIndex)` of a flattened word
(the source's template string key). -/
def IndexedWord.key (w : IndexedWord) : Key := (w.lineIndex, w.wordIndex)

/-- The `words` memo (source lines 86-97): every word of every line that
carries a numeric `midi`, tagged with its line index and its position inside
the line's full word list. -/
def wordsOf (lyrics : List LyricsLine) : List IndexedWord :=
  (lyrics.enum.map fun li =>
    li.2.words.enum.filterMap fun wi =>
      wi.2.midi.map fun m =>
        ⟨wi.2.startTime, wi.2.endTime, m, li.1, wi.1⟩).flatten

/-- An entry of the user pitch trail (source `userPitchTrailRef`): time and
quantized MIDI value. -/
structure TrailPoint where
  time : ℝ
  midi : ℤ
deriving DecidableEq

/-- The single-slot latest pitch estimate (source `latestPitchRef`). -/
structure LatestPitch where
  frequency : ℝ
  time : ℝ

/-- A note scoring record (source `scoredResultsRef` map values). -/
structure ScoredResult where
  result : Judgement
  scoredAt : ℝ
deriving DecidableEq

/-- A discrete judgement event as emitted to `setScorePopups`
(source lines 416 and 420): the displayed tier and the points granted. -/
structure ScoreEvent where
  type : Judgement
  points : ℤ

/-- `USER_TRAIL_SECONDS` (source line 32). -/
def USER_TRAIL_SECONDS : ℝ := 4

/-- The engine state: the mutable refs of the component that the scoring
logic reads or writes. (`judgementPopupsRef` and the canvas are pure
presentation and are omitted; `scorePopups` is kept because it is the
discrete judgement-event stream.) -/
structure GameState where
  lastTime : ℝ
  score : ℝ
  combo : ℕ
  micOn : Bool
  trail : List TrailPoint
  latestPitch : LatestPitch
  scoredResults : Key → Option ScoredResult
  pitchSamples : Key → Option (List ℝ)
  scorePopups : List ScoreEvent

/-- Point update of a keyed map. -/
def setKey {α : Type} (m : Key → Option α) (k : Key) (v : α) : Key → Option α :=
  fun q => if q = k then some v else m q

/-- Point removal from a keyed map (`Map.delete`). -/
def delKey {α : Type} (m : Key → Option α) (k : Key) : Key → Option α :=
  fun q => if q = k then none else m q

/-- The initial state: refs start at 0 / empty, `isMicOn` starts `true`
(source lines 57-78). -/
def baseState : GameState :=
  { lastTime := 0
    score := 0
    combo := 0
    micOn := true
    trail := []
    latestPitch := ⟨0, 0⟩
    scoredResults := fun _ => none
    pitchSamples := fun _ => none
    scorePopups := [] }

/-- `midiToFreq` (source line 37): `440 * 2 ^ ((midi - 69) / 12)`. -/
def midiToFreq (midi : ℝ) : ℝ := 440 * (2 : ℝ) ^ ((midi - 69) / 12)

/-- `freqToMidi` (source line 38): `69 + 12 * log2(frequency / 440)`. -/
def freqToMidi (frequency : ℝ) : ℝ := 69 + 12 * Real.logb 2 (frequency / 440)

/-- RMS energy of the buffer (source lines 272-276). -/
def rmsOf (buffer : List ℝ) : ℝ :=
  Real.sqrt ((buffer.map fun x => x * x).sum / buffer.length)

/-- First loop of `autoCorrelate` (source lines 283-288): scan the indices
`i` with `i < size / 2` in order and return the first with
`|buffer[i]| < 0.2`; the fallback is the initial value `r1 = 0`. -/
def r1Scan (buffer : List ℝ) : List ℕ → ℕ
  | [] => 0
  | i :: rest => if |buffer.getD i 0| < 0.2 then i else r1Scan buffer rest

/-- `r1` of `autoCorrelate`: the scan runs over `i ∈ [0, size/2)`,
i.e. `2 * i < size`. -/
def r1Of (buffer : List ℝ) : ℕ :=
  r1Scan buffer (List.range ((buffer.length + 1) / 2))

/-- Second loop of `autoCorrelate` (source lines 290-295): scan
`i ∈ [1, size/2)` and return `size - i` for the first hit of
`|buffer[size - i]| < 0.2`; the fallback is the initial `r2 = size - 1`. -/
def r2Scan (buffer : List ℝ) : List ℕ → ℕ
  | [] => buffer.length - 1
  | i :: rest =>
    if |buffer.getD (buffer.length - i) 0| < 0.2 then buffer.length - i
    else r2Scan buffer rest

/-- `r2` of `autoCorrelate`. -/
def r2Of (buffer : List ℝ) : ℕ :=
  r2Scan buffer ((List.range ((buffer.length + 1) / 2)).drop 1)

/-- `buffer.slice(r1, r2)` (source line 297). -/
def trimmed (buffer : List ℝ) : List ℝ :=
  (buffer.drop (r1Of buffer)).take (r2Of buffer - r1Of buffer)

/-- The direct-summation autocorrelation array `c` (source lines 300-305):
`c[i] = Σ_{j < size - i} buffer[j] * buffer[j+i]`. -/
def autocorrOf (buf : List ℝ) : List ℝ :=
  (List.range buf.length).map fun i =>
    ((List.range (buf.length - i)).map fun j => buf.getD j 0 * buf.getD (j + i) 0).sum

/-- The `while (c[d] > c[d+1]) d++` descent (source lines 307-308): keep
stepping while both entries exist and the current one is larger (a
comparison against the out-of-range `undefined` is false in JS and stops
the loop). The scan list `range (length + 1)` always suffices. -/
def descentScan (c : List ℝ) : List ℕ → ℕ
  | [] => 0
  | d :: rest =>
    if d + 1 < c.length ∧ c.getD d 0 > c.getD (d + 1) 0 then descentScan c rest
    else d

/-- The final value of `d` in `autoCorrelate`. -/
def descentEnd (c : List ℝ) : ℕ := descentScan c (List.range (c.length + 1))

/-- One step of the maximum search (source lines 312-317),
accumulator `(maxval, maxpos)`. -/
def maxStep (c : List ℝ) (acc : ℝ × ℤ) (i : ℕ) : ℝ × ℤ :=
  if c.getD i 0 > acc.1 then (c.getD i 0, (i : ℤ)) else acc

/-- The maximum search over `i ∈ [d, size)` starting from
`maxval = -1, maxpos = -1` (source lines 310-317). -/
def maxFrom (c : List ℝ) (d : ℕ) : ℝ × ℤ :=
  ((List.range c.length).drop d).foldl (maxStep c) (-1, -1)

/-- `autoCorrelate` (source lines 270-320): RMS silence gate at 0.01,
amplitude-threshold trim, direct autocorrelation, skip of the initial
descending run, arg-max of the remainder, then `sampleRate / maxpos`. -/
def autoCorrelate (buffer : List ℝ) (sampleRate : ℝ) : ℝ :=
  if rmsOf buffer < 0.01 then -1
  else
    let buf := trimmed buffer
    let c := autocorrOf buf
    let d := descentEnd c
    sampleRate / (((maxFrom c d).2 : ℤ) : ℝ)

/-- The scanning loop of `findCurrentLyricIndex` (source lines 104-124),
carrying the current index `i`. -/
def findLyricScan (time : ℝ) : List LyricsLine → ℕ → ℤ
  | [], _ => -1
  | line :: rest, i =>
    if time ≥ line.startTime ∧ time ≤ line.endTime then (i : ℤ)
    else if time > line.endTime then
      match rest with
      | nextLine :: _ =>
        if time < nextLine.startTime then
          if time ≤ line.endTime + 0.5 then (i : ℤ)
          else if nextLine.startTime - line.endTime ≤ 3.0 then (i : ℤ) + 1
          else -1
        else findLyricScan time rest (i + 1)
      | [] =>
        if time ≤ line.endTime + 2.0 then (i : ℤ) else -1
    else findLyricScan time rest (i + 1)

/-- `findCurrentLyricIndex` (source lines 99-129): `-1` means no active
line; an empty timeline gives `-1`, a time before the first line gives
index 0. -/
def findCurrentLyricIndex (lyrics : List LyricsLine) (time : ℝ) : ℤ :=
  match lyrics with
  | [] => -1
  | first :: _ =>
    if time < first.startTime then 0 else findLyricScan time lyrics 0

/-- Pitch-detection phase of the frame callback (source lines 343-355):
while the microphone is on and the analyser delivered a buffer,
`analyserOut` is the value `autoCorrelate` returned for it (`none` when no
analyser/audio context exists). A positive frequency overwrites the
single-slot latest pitch and appends a quantized point to the user trail;
the slot is never cleared otherwise. -/
def detectPitch (s : GameState) (now : ℝ) (analyserOut : Option ℝ) : GameState :=
  if s.micOn then
    match analyserOut with
    | some frequency =>
      if frequency > 0 then
        { s with latestPitch := ⟨frequency, now⟩
                 trail := s.trail ++ [⟨now, round (freqToMidi frequency)⟩] }
      else s
    | none => s
  else s

/-- Trail eviction (source line 357): keep points with
`now - time ≤ USER_TRAIL_SECONDS`. -/
def evictTrail (trail : List TrailPoint) (now : ℝ) : List TrailPoint :=
  trail.filter fun point => decide (now - point.time ≤ USER_TRAIL_SECONDS)

/-- One iteration of the sample-collection `forEach` (source lines 360-367):
if the word's window contains `now`, append `freq` to its pending list
(`get(key) || []` then `set`). The source's `typeof word.midi === "number"`
re-check is vacuous here because `IndexedWord.midi` is total. -/
def collectStep (now freq : ℝ) (m : Key → Option (List ℝ)) (w : IndexedWord) :
    Key → Option (List ℝ) :=
  if now ≥ w.startTime ∧ now ≤ w.endTime then
    setKey m w.key (((m w.key).getD []) ++ [freq])
  else m

/-- The sample-collection pass over all scheduled words
(source lines 359-368). -/
def collectSamples (words : List IndexedWord) (now freq : ℝ)
    (m : Key → Option (List ℝ)) : Key → Option (List ℝ) :=
  words.foldl (collectStep now freq) m

/-- One iteration of the best-sample loop (source lines 381-388): compute
the deviation in cents, `cents = 1200 * log2(sample / targetFreq)`, and keep
the sample whose absolute cents is strictly smaller than the best so far. -/
def bestStep (targetFreq : ℝ) (best : Option (ℝ × ℝ)) (sample : ℝ) :
    Option (ℝ × ℝ) :=
  let absCents := |1200 * Real.logb 2 (sample / targetFreq)|
  match best with
  | none => some (absCents, sample)
  | some b => if absCents < b.1 then some (absCents, sample) else some b

/-- The best-sample fold of the judgement step (source lines 378-388):
running pair `(bestCents, bestFreq)` starting from
`(POSITIVE_INFINITY, 0)`. Because every real number is below the initial
infinity, the accumulator is modelled as `none` until the first sample is
taken; `none` corresponds exactly to `bestFreq = 0` remaining. -/
def bestSample (targetFreq : ℝ) (samples : List ℝ) : Option (ℝ × ℝ) :=
  samples.foldl (bestStep targetFreq) none

/-- The per-note judgement (source lines 376-403): the tier and base points
derived from the collected samples and the word's target MIDI number. -/
def scoreWord (samples : List ℝ) (midi : ℝ) : Judgement × ℝ :=
  let targetFreq := midiToFreq midi
  match bestSample targetFreq samples with
  | none => (Judgement.MISS, 0)
  | some bc =>
    if bc.2 > 0 then
      if bc.1 < 10 then (Judgement.PERFECT, 100)
      else if bc.1 < 25 then (Judgement.GREAT, 75)
      else if bc.1 < 50 then (Judgement.GOOD, 50)
      else (Judgement.MISS, 0)
    else (Judgement.MISS, 0)

/-- `prev.slice(-3)` (source lines 416 and 420): the last three events. -/
def sliceLast3 (l : List ScoreEvent) : List ScoreEvent := l.drop (l.length - 3)

/-- One iteration of the judgement `forEach` (source lines 370-432): finalize
the word once `now` is strictly past its `endTime` and it has no record yet;
store the record, discard the pending samples, then update score/combo and
emit a score-popup event. The source's mutation sequence (record `set`,
samples `delete`, then the branch on `basePoints > 0 && isMicOnRef.current`)
is flattened into a single record update per branch. -/
def scoreStep (now : ℝ) (st : GameState) (w : IndexedWord) : GameState :=
  if now ≤ w.endTime then st
  else if (st.scoredResults w.key).isSome then st
  else
    let samples := (st.pitchSamples w.key).getD []
    let result := (scoreWord samples w.midi).1
    let basePoints := (scoreWord samples w.midi).2
    if basePoints > 0 ∧ st.micOn then
      let mult : ℝ := min 2 (1 + (st.combo : ℝ) * 0.1)
      let points : ℤ := round (basePoints * mult)
      { st with
        scoredResults := setKey st.scoredResults w.key ⟨result, now⟩
        pitchSamples := delKey st.pitchSamples w.key
        combo := st.combo + 1
        score := st.score + (points : ℝ)
        scorePopups := sliceLast3 st.scorePopups ++ [⟨result, points⟩] }
    else
      { st with
        scoredResults := setKey st.scoredResults w.key ⟨result, now⟩
        pitchSamples := delKey st.pitchSamples w.key
        combo := 0
        scorePopups := sliceLast3 st.scorePopups ++ [⟨Judgement.MISS, 0⟩] }

/-- One invocation of the per-frame `loop` callback (source lines 322-432),
restricted to the scoring state: the `lastTime` update gated at 0.016 s
(the lyric-index dispatch it also guards is display-only), the
pitch-detection phase, trail eviction, sample collection for open words
while the mic is on and the latest frequency is positive, and the
judgement pass. -/
def loop (words : List IndexedWord) (s : GameState) (now : ℝ)
    (analyserOut : Option ℝ) : GameState :=
  let s0 := if |now - s.lastTime| > 0.016 then { s with lastTime := now } else s
  let s1 := detectPitch s0 now analyserOut
  let s2 := { s1 with trail := evictTrail s1.trail now }
  let s3 :=
    if s2.micOn ∧ s2.latestPitch.frequency > 0 then
      { s2 with pitchSamples :=
          collectSamples words now s2.latestPitch.frequency s2.pitchSamples }
    else s2
  words.foldl (scoreStep now) s3

/-- The part of the frame callback before the judgement pass (source lines
322-368): `loop` is definitionally the judgement fold applied to this
state. Introduced only to let lemmas name the intermediate state. -/
def preScore (words : List IndexedWord) (s : GameState) (now : ℝ)
    (analyserOut : Option ℝ) : GameState :=
  let s0 := if |now - s.lastTime| > 0.016 then { s with lastTime := now } else s
  let s1 := detectPitch s0 now analyserOut
  let s2 := { s1 with trail := evictTrail s1.trail now }
  if s2.micOn ∧ s2.latestPitch.frequency > 0 then
    { s2 with pitchSamples :=
        collectSamples words now s2.latestPitch.frequency s2.pitchSamples }
  else s2

/-- `handleRestart` (source lines 241-256): reset time, score, combo and the
popup list, clear the trail, the scoring records and the pending sample
lists. The latest-pitch slot is not touched by the source and is therefore
kept. -/
def handleRestart (s : GameState) : GameState :=
  { s with
    lastTime := 0
    score := 0
    combo := 0
    scorePopups := []
    trail := []
    scoredResults := fun _ => none
    pitchSamples := fun _ => none }

/-- The microphone toggle (source lines 84 and 925): `isMicOnRef` mirrors
the `isMicOn` state; no scoring state is touched. -/
def setMicOn (b : Bool) (s : GameState) : GameState := { s with micOn := b }

/-- Modelled from the spec (§4.4 step 3, for comparison with `scoreWord`):
the tier table on a minimum absolute cents value. -/
def specTier (c : ℝ) : Judgement × ℝ :=
  if c < 10 then (Judgement.PERFECT, 100)
  else if c < 25 then (Judgement.GREAT, 75)
  else if c < 50 then (Judgement.GOOD, 50)
  else (Judgement.MISS, 0)

/-- Modelled from the spec (§4.4/§4.5): the base points of each tier. -/
def basePointsOf : Judgement → ℝ
  | Judgement.PERFECT => 100
  | Judgement.GREAT => 75
  | Judgement.GOOD => 50
  | Judgement.MISS => 0

end

theorem detectPitch_scoredResults (s : GameState) (now : ℝ) (a : Option ℝ) :
    (detectPitch s now a).scoredResults = s.scoredResults := by
  unfold detectPitch
  rcases a with _ | f
  · split_ifs <;> rfl
  · by_cases hm : s.micOn = true <;> by_cases hf : f > 0 <;> simp [hm, hf]

theorem detectPitch_pitchSamples (s : GameState) (now : ℝ) (a : Option ℝ) :
    (detectPitch s now a).pitchSamples = s.pitchSamples := by
  unfold detectPitch
  rcases a with _ | f
  · split_ifs <;> rfl
  · by_cases hm : s.micOn = true <;> by_cases hf : f > 0 <;> simp [hm, hf]

theorem detectPitch_micOn (s : GameState) (now : ℝ) (a : Option ℝ) :
    (detectPitch s now a).micOn = s.micOn := by
  unfold detectPitch
  rcases a with _ | f
  · split_ifs <;> rfl
  · by_cases hm : s.micOn = true <;> by_cases hf : f > 0 <;> simp [hm, hf]

theorem detectPitch_score (s : GameState) (now : ℝ) (a : Option ℝ) :
    (detectPitch s now a).score = s.score := by
  unfold detectPitch
  rcases a with _ | f
  · split_ifs <;> rfl
  · by_cases hm : s.micOn = true <;> by_cases hf : f > 0 <;> simp [hm, hf]

theorem detectPitch_combo (s : GameState) (now : ℝ) (a : Option ℝ) :
    (detectPitch s now a).combo = s.combo := by
  unfold detectPitch
  rcases a with _ | f
  · split_ifs <;> rfl
  · by_cases hm : s.micOn = true <;> by_cases hf : f > 0 <;> simp [hm, hf]

theorem detectPitch_scorePopups (s : GameState) (now : ℝ) (a : Option ℝ) :
    (detectPitch s now a).scorePopups = s.scorePopups := by
  unfold detectPitch
  rcases a with _ | f
  · split_ifs <;> rfl
  · by_cases hm : s.micOn = true <;> by_cases hf : f > 0 <;> simp [hm, hf]

theorem scoreStep_preserves_scored {now : ℝ} {st : GameState} {w : IndexedWord}
    {k : Key} {r : ScoredResult} (h : st.scoredResults k = some r) :
    (scoreStep now st w).scoredResults k = some r := by
  unfold scoreStep
  split_ifs with h1 h2
  · exact h
  · exact h
  · have hq : ¬ k = w.key := by
      intro hq; rw [hq] at h; rw [h] at h2; simp at h2
    dsimp only
    split_ifs <;> simp only [setKey] <;> rw [if_neg hq] <;> exact h

theorem foldl_scoreStep_preserves_scored (now : ℝ) (words : List IndexedWord) :
    ∀ (st : GameState) {k : Key} {r : ScoredResult},
      st.scoredResults k = some r →
      (words.foldl (scoreStep now) st).scoredResults k = some r := by
  induction words with
  | nil => intro st k r h; exact h
  | cons w ws ih => intro st k r h; exact ih _ (scoreStep_preserves_scored h)

theorem loop_preserves_scored {words : List IndexedWord} {s : GameState}
    {now : ℝ} {a : Option ℝ} {k : Key} {r : ScoredResult}
    (h : s.scoredResults k = some r) :
    (loop words s now a).scoredResults k = some r := by
  unfold loop
  apply foldl_scoreStep_preserves_scored
  split_ifs <;> simp [detectPitch_scoredResults, h]

/-- Claim C1: once a Note Scoring Record exists for a Note's identity, any
further frame of the loop — at any playback time, including times past the
Note's `endTime` or back inside its window after a backward seek — leaves
that record unchanged. The model is a total Lean function, so the frame
also cannot throw. -/
theorem claim_C1 (words : List IndexedWord) (s : GameState) (now : ℝ)
    (analyserOut : Option ℝ) (k : Key) (r : ScoredResult)
    (h : s.scoredResults k = some r) :
    (loop words s now analyserOut).scoredResults k = some r :=
  loop_preserves_scored h

theorem scoreStep_trail (now : ℝ) (st : GameState) (w : IndexedWord) :
    (scoreStep now st w).trail = st.trail := by
  unfold scoreStep
  split_ifs with h1 h2
  · rfl
  · rfl
  · dsimp only
    split_ifs <;> rfl

theorem scoreStep_micOn (now : ℝ) (st : GameState) (w : IndexedWord) :
    (scoreStep now st w).micOn = st.micOn := by
  unfold scoreStep
  split_ifs with h1 h2
  · rfl
  · rfl
  · dsimp only
    split_ifs <;> rfl

theorem scoreStep_latestPitch (now : ℝ) (st : GameState) (w : IndexedWord) :
    (scoreStep now st w).latestPitch = st.latestPitch := by
  unfold scoreStep
  split_ifs with h1 h2
  · rfl
  · rfl
  · dsimp only
    split_ifs <;> rfl

theorem foldl_scoreStep_trail (now : ℝ) (words : List IndexedWord) :
    ∀ st : GameState, (words.foldl (scoreStep now) st).trail = st.trail := by
  induction words with
  | nil => intro st; rfl
  | cons w ws ih => intro st; rw [List.foldl_cons, ih, scoreStep_trail]

theorem loop_trail_eq (words : List IndexedWord) (s : GameState) (now : ℝ)
    (a : Option ℝ) :
    (loop words s now a).trail =
      evictTrail
        ((detectPitch (if |now - s.lastTime| > 0.016 then { s with lastTime := now }
          else s) now a).trail) now := by
  unfold loop
  rw [foldl_scoreStep_trail]
  dsimp only
  split_ifs <;> rfl

theorem detectPitch_trail_valid {s : GameState} {now f : ℝ} (hm : s.micOn = true)
    (hf : f > 0) :
    (detectPitch s now (some f)).trail =
      s.trail ++ [⟨now, round (freqToMidi f)⟩] := by
  unfold detectPitch
  rw [if_pos hm]
  dsimp only
  rw [if_pos hf]

/-- Claim C8: after any frame of the loop, every entry of the Pitch Trail is
at most `USER_TRAIL_SECONDS` (4 s) old relative to the reported time `now`
(entries with `now - time > 4` are evicted every frame), and a valid pitch
sample observed on the frame (mic on, analyser produced a positive
frequency) is appended with its time and survives the eviction. -/
theorem claim_C8 (words : List IndexedWord) (s : GameState) (now : ℝ)
    (a : Option ℝ) :
    (∀ p ∈ (loop words s now a).trail, now - p.time ≤ USER_TRAIL_SECONDS) ∧
    (∀ f : ℝ, s.micOn = true → a = some f → f > 0 →
      (⟨now, round (freqToMidi f)⟩ : TrailPoint) ∈ (loop words s now a).trail) := by
  constructor
  · intro p hp
    rw [loop_trail_eq] at hp
    unfold evictTrail at hp
    rw [List.mem_filter] at hp
    exact of_decide_eq_true hp.2
  · intro f hm ha hf
    rw [loop_trail_eq, ha]
    unfold evictTrail
    rw [List.mem_filter]
    have hm0 : (if |now - s.lastTime| > 0.016 then { s with lastTime := now }
        else s).micOn = true := by
      split_ifs <;> exact hm
    constructor
    · rw [detectPitch_trail_valid hm0 hf]
      have htr : (if |now - s.lastTime| > 0.016 then { s with lastTime := now }
          else s).trail = s.trail := by
        split_ifs <;> rfl
      rw [htr]
      exact List.mem_append_right _ (List.mem_singleton_self _)
    · simp only [decide_eq_true_eq, USER_TRAIL_SECONDS]
      norm_num

theorem claim_C8_witness :
    (∀ p ∈ (loop [] baseState 1 (some 440)).trail,
      (1 : ℝ) - p.time ≤ USER_TRAIL_SECONDS) ∧
    (⟨1, round (freqToMidi 440)⟩ : TrailPoint) ∈
      (loop [] baseState 1 (some 440)).trail :=
  ⟨(claim_C8 [] baseState 1 (some 440)).1,
   (claim_C8 [] baseState 1 (some 440)).2 440 rfl rfl (by norm_num)⟩

theorem scoreStep_score_le (now : ℝ) (st : GameState) (w : IndexedWord) :
    st.score ≤ (scoreStep now st w).score := by
  unfold scoreStep
  split_ifs with h1 h2
  · exact le_refl _
  · exact le_refl _
  · dsimp only
    split_ifs with h3
    · have hbp : (0 : ℝ) ≤ (scoreWord ((st.pitchSamples w.key).getD []) w.midi).2 :=
        le_of_lt h3.1
      have hmult : (0 : ℝ) ≤ min 2 (1 + (st.combo : ℝ) * 0.1) := by
        apply le_min
        · norm_num
        · positivity
      have hpts : (0 : ℝ) ≤
          ((round ((scoreWord ((st.pitchSamples w.key).getD []) w.midi).2 *
            min 2 (1 + (st.combo : ℝ) * 0.1)) : ℤ) : ℝ) := by
        have : (0 : ℤ) ≤ round ((scoreWord ((st.pitchSamples w.key).getD []) w.midi).2 *
            min 2 (1 + (st.combo : ℝ) * 0.1)) := by
          rw [round_eq]
          apply Int.floor_nonneg.mpr
          have := mul_nonneg hbp hmult
          linarith
        exact_mod_cast this
      simp only [GameState.score]
      linarith
    · exact le_refl _

theorem foldl_scoreStep_score_le (now : ℝ) (words : List IndexedWord) :
    ∀ st : GameState, st.score ≤ (words.foldl (scoreStep now) st).score := by
  induction words with
  | nil => intro st; exact le_refl _
  | cons w ws ih =>
    intro st
    rw [List.foldl_cons]
    exact le_trans (scoreStep_score_le now st w) (ih _)

theorem loop_score_le (words : List IndexedWord) (s : GameState) (now : ℝ)
    (a : Option ℝ) : s.score ≤ (loop words s now a).score := by
  unfold loop
  dsimp only
  refine le_trans (le_of_eq ?_) (foldl_scoreStep_score_le now words _)
  split_ifs <;> simp [detectPitch_score]

/-- Claim C10: the score is monotonically non-decreasing across frames with
no restart (each judgement grants a non-negative number of points), a
non-negative score stays non-negative, restart resets the score to 0, and
the microphone toggle does not change it. The combo is a natural number in
this model (the source only ever assigns 0 or `combo + 1`), so it is
non-negative by construction. -/
theorem claim_C10 (words : List IndexedWord) (s : GameState) (now : ℝ)
    (a : Option ℝ) (b : Bool) :
    s.score ≤ (loop words s now a).score ∧
    (0 ≤ s.score → 0 ≤ (loop words s now a).score) ∧
    (handleRestart s).score = 0 ∧
    (setMicOn b s).score = s.score := by
  refine ⟨loop_score_le words s now a, ?_, rfl, rfl⟩
  intro h0
  exact le_trans h0 (loop_score_le words s now a)

theorem claim_C10_witness :
    (0 : ℝ) ≤ baseState.score ∧ 0 ≤ (loop [] baseState 1 none).score :=
  ⟨le_refl 0, (claim_C10 [] baseState 1 none true).2.1 (le_refl 0)⟩

theorem scoreStep_scored_isSome {now : ℝ} {w : IndexedWord}
    (h : now > w.endTime) (st : GameState) :
    ((scoreStep now st w).scoredResults w.key).isSome = true := by
  unfold scoreStep
  rw [if_neg (not_le.mpr h)]
  by_cases hs : (st.scoredResults w.key).isSome = true
  · rw [if_pos hs]; exact hs
  · rw [if_neg hs]
    dsimp only
    split_ifs <;> simp [setKey]

/-- Claim C7: restart resets the score and combo to 0, clears every Note
Scoring Record, the Pitch Trail, and every pending sample list; afterwards
a Note whose window has elapsed is scored again (a record is created for
it); and among the engine's operations (frame loop, mic toggle, restart)
only restart removes an existing record — the loop and the mic toggle
preserve every existing record. -/
theorem claim_C7 (s : GameState) :
    (handleRestart s).score = 0 ∧
    (handleRestart s).combo = 0 ∧
    (∀ k : Key, (handleRestart s).scoredResults k = none) ∧
    (handleRestart s).trail = [] ∧
    (∀ k : Key, (handleRestart s).pitchSamples k = none) ∧
    (∀ (w : IndexedWord) (now : ℝ) (a : Option ℝ), now > w.endTime →
      ((loop [w] (handleRestart s) now a).scoredResults w.key).isSome = true) ∧
    (∀ (words : List IndexedWord) (now : ℝ) (a : Option ℝ) (k : Key)
      (r : ScoredResult), s.scoredResults k = some r →
      (loop words s now a).scoredResults k = some r) ∧
    (∀ (b : Bool) (k : Key), (setMicOn b s).scoredResults k = s.scoredResults k) := by
  refine ⟨rfl, rfl, fun k => rfl, rfl, fun k => rfl, ?_, ?_, fun b k => rfl⟩
  · intro w now a h
    unfold loop
    dsimp only
    rw [List.foldl_cons, List.foldl_nil]
    exact scoreStep_scored_isSome h _
  · intro words now a k r h
    exact loop_preserves_scored h

theorem claim_C7_witness :
    (handleRestart { baseState with
      score := 5
      combo := 2
      scoredResults := fun q =>
        if q = ((0, 0) : Key) then some ⟨Judgement.GOOD, 1⟩ else none }).score = 0 ∧
    ((loop [⟨0, 1, 69, 0, 0⟩]
      (handleRestart { baseState with
        score := 5
        combo := 2
        scoredResults := fun q =>
          if q = ((0, 0) : Key) then some ⟨Judgement.GOOD, 1⟩ else none })
      2 none).scoredResults (0, 0)).isSome = true :=
  ⟨(claim_C7 _).1,
   (claim_C7 _).2.2.2.2.2.1 ⟨0, 1, 69, 0, 0⟩ 2 none (by norm_num)⟩

theorem detectPitch_latestPitch (s : GameState) (now : ℝ) (a : Option ℝ) :
    (detectPitch s now a).latestPitch =
      (match a with
       | some f => if s.micOn = true ∧ f > 0 then ⟨f, now⟩ else s.latestPitch
       | none => s.latestPitch) := by
  unfold detectPitch
  rcases a with _ | f
  · split_ifs <;> rfl
  · by_cases hm : s.micOn = true <;> by_cases hf : f > 0 <;> simp [hm, hf]

theorem detectPitch_latestPitch_congr {s s' : GameState} (now : ℝ) (a : Option ℝ)
    (hm : s'.micOn = s.micOn) (hl : s'.latestPitch = s.latestPitch) :
    (detectPitch s' now a).latestPitch = (detectPitch s now a).latestPitch := by
  rw [detectPitch_latestPitch, detectPitch_latestPitch, hm, hl]

theorem detectPitch_latest_stale (s : GameState) (now : ℝ) (a : Option ℝ)
    (h : a = none ∨ ∀ f : ℝ, a = some f → f ≤ 0) :
    (detectPitch s now a).latestPitch = s.latestPitch := by
  rcases a with _ | f
  · rw [detectPitch_latestPitch]
  · rw [detectPitch_latestPitch]
    dsimp only
    rcases h with h | h
    · cases h
    · rw [if_neg]
      intro hc
      exact absurd hc.2 (not_lt.mpr (h f rfl))

theorem collectStep_other (now freq : ℝ) (m : Key → Option (List ℝ))
    (w : IndexedWord) {k : Key} (hk : ¬ k = w.key) :
    collectStep now freq m w k = m k := by
  unfold collectStep
  split_ifs with ho
  · simp [setKey, hk]
  · rfl

theorem collectSamples_not_mem (now freq : ℝ) (words : List IndexedWord) :
    ∀ (m : Key → Option (List ℝ)) {k : Key}, (∀ w ∈ words, ¬ k = w.key) →
      collectSamples words now freq m k = m k := by
  induction words with
  | nil => intro m k h; rfl
  | cons w ws ih =>
    intro m k h
    unfold collectSamples at ih ⊢
    rw [List.foldl_cons, ih _ fun u hu => h u (List.mem_cons_of_mem _ hu)]
    exact collectStep_other now freq m w (h w (List.mem_cons_self _ _))

theorem collectSamples_mem (now freq : ℝ) (words : List IndexedWord) :
    ∀ (m : Key → Option (List ℝ)) (w : IndexedWord), w ∈ words →
      List.Nodup (words.map IndexedWord.key) →
      collectSamples words now freq m w.key =
        (if now ≥ w.startTime ∧ now ≤ w.endTime then
          some (((m w.key).getD []) ++ [freq])
        else m w.key) := by
  induction words with
  | nil => intro m w hw; exact absurd hw (List.not_mem_nil _)
  | cons v ws ih =>
    intro m w hw hnd
    rw [List.map_cons, List.nodup_cons] at hnd
    have hcons : collectSamples (v :: ws) now freq m =
        collectSamples ws now freq (collectStep now freq m v) := rfl
    rw [hcons]
    rcases List.mem_cons.mp hw with heq | hmem
    · subst heq
      rw [collectSamples_not_mem now freq ws _ fun u hu he =>
        hnd.1 (show w.key ∈ List.map IndexedWord.key ws by
          rw [he]; exact List.mem_map_of_mem _ hu)]
      unfold collectStep
      split_ifs with ho
      · simp [setKey]
      · rfl
    · have hne : ¬ w.key = v.key := fun he =>
        hnd.1 (he ▸ List.mem_map_of_mem _ hmem)
      rw [ih _ w hmem hnd.2, collectStep_other now freq m v hne]

theorem scoreStep_pitchSamples_other (now : ℝ) (st : GameState)
    (v : IndexedWord) {k : Key} (hk : ¬ k = v.key) :
    (scoreStep now st v).pitchSamples k = st.pitchSamples k := by
  unfold scoreStep
  split_ifs with h1 h2
  · rfl
  · rfl
  · dsimp only
    split_ifs <;> simp [delKey, hk]

theorem foldl_scoreStep_pitchSamples_at (now : ℝ) (words : List IndexedWord)
    (k : Key) :
    ∀ st : GameState, (∀ v ∈ words, v.key = k → now ≤ v.endTime) →
      (words.foldl (scoreStep now) st).pitchSamples k = st.pitchSamples k := by
  induction words with
  | nil => intro st _; rfl
  | cons v ws ih =>
    intro st h
    rw [List.foldl_cons, ih _ fun u hu => h u (List.mem_cons_of_mem _ hu)]
    by_cases hv : v.key = k
    · have hle := h v (List.mem_cons_self _ _) hv
      unfold scoreStep
      rw [if_pos hle]
    · exact scoreStep_pitchSamples_other now st v fun he => hv he.symm

theorem foldl_scoreStep_micOn (now : ℝ) (words : List IndexedWord) :
    ∀ st : GameState, (words.foldl (scoreStep now) st).micOn = st.micOn := by
  induction words with
  | nil => intro st; rfl
  | cons v ws ih => intro st; rw [List.foldl_cons, ih, scoreStep_micOn]

theorem foldl_scoreStep_latestPitch (now : ℝ) (words : List IndexedWord) :
    ∀ st : GameState, (words.foldl (scoreStep now) st).latestPitch = st.latestPitch := by
  induction words with
  | nil => intro st; rfl
  | cons v ws ih => intro st; rw [List.foldl_cons, ih, scoreStep_latestPitch]

theorem loop_micOn (words : List IndexedWord) (s : GameState) (now : ℝ)
    (a : Option ℝ) : (loop words s now a).micOn = s.micOn := by
  unfold loop
  dsimp only
  rw [foldl_scoreStep_micOn]
  split_ifs <;> simp [detectPitch_micOn]

theorem loop_latestPitch (words : List IndexedWord) (s : GameState) (now : ℝ)
    (a : Option ℝ) :
    (loop words s now a).latestPitch = (detectPitch s now a).latestPitch := by
  unfold loop
  dsimp only
  rw [foldl_scoreStep_latestPitch]
  split_ifs with h0
  · exact detectPitch_latestPitch_congr now a rfl rfl
  · exact detectPitch_latestPitch_congr now a rfl rfl
  · exact detectPitch_latestPitch_congr now a rfl rfl
  · exact detectPitch_latestPitch_congr now a rfl rfl

theorem loop_pitchSamples_char (words : List IndexedWord) (s : GameState)
    (now : ℝ) (a : Option ℝ) (k : Key)
    (hcl : ∀ v ∈ words, v.key = k → now ≤ v.endTime) :
    (loop words s now a).pitchSamples k =
      (if s.micOn = true ∧ (detectPitch s now a).latestPitch.frequency > 0 then
        collectSamples words now ((detectPitch s now a).latestPitch.frequency)
          s.pitchSamples k
      else s.pitchSamples k) := by
  unfold loop
  dsimp only
  rw [foldl_scoreStep_pitchSamples_at now words k _ hcl]
  have hm2 : (detectPitch (if |now - s.lastTime| > 0.016 then
      { s with lastTime := now } else s) now a).micOn = s.micOn := by
    rw [detectPitch_micOn]; split_ifs <;> rfl
  have hl2 : (detectPitch (if |now - s.lastTime| > 0.016 then
      { s with lastTime := now } else s) now a).latestPitch =
      (detectPitch s now a).latestPitch := by
    split_ifs <;> exact detectPitch_latestPitch_congr now a rfl rfl
  have hp2 : (detectPitch (if |now - s.lastTime| > 0.016 then
      { s with lastTime := now } else s) now a).pitchSamples = s.pitchSamples := by
    rw [detectPitch_pitchSamples]; split_ifs <;> rfl
  rw [apply_ite (fun st : GameState => st.pitchSamples k)]
  dsimp only
  rw [hm2, hl2, hp2]

theorem loop_eq_foldl (words : List IndexedWord) (s : GameState) (now : ℝ)
    (a : Option ℝ) :
    loop words s now a = words.foldl (scoreStep now) (preScore words s now a) := rfl

theorem preScore_scoredResults (words : List IndexedWord) (s : GameState)
    (now : ℝ) (a : Option ℝ) :
    (preScore words s now a).scoredResults = s.scoredResults := by
  unfold preScore
  dsimp only
  split_ifs <;> simp [detectPitch_scoredResults]

theorem preScore_combo (words : List IndexedWord) (s : GameState)
    (now : ℝ) (a : Option ℝ) : (preScore words s now a).combo = s.combo := by
  unfold preScore
  dsimp only
  split_ifs <;> simp [detectPitch_combo]

theorem preScore_score (words : List IndexedWord) (s : GameState)
    (now : ℝ) (a : Option ℝ) : (preScore words s now a).score = s.score := by
  unfold preScore
  dsimp only
  split_ifs <;> simp [detectPitch_score]

theorem preScore_micOn (words : List IndexedWord) (s : GameState)
    (now : ℝ) (a : Option ℝ) : (preScore words s now a).micOn = s.micOn := by
  unfold preScore
  dsimp only
  split_ifs <;> simp [detectPitch_micOn]

theorem preScore_pitchSamples_at (words : List IndexedWord) (s : GameState)
    (now : ℝ) (a : Option ℝ) (k : Key) :
    (preScore words s now a).pitchSamples k =
      (if s.micOn = true ∧ (detectPitch s now a).latestPitch.frequency > 0 then
        collectSamples words now ((detectPitch s now a).latestPitch.frequency)
          s.pitchSamples k
      else s.pitchSamples k) := by
  unfold preScore
  dsimp only
  have hm2 : (detectPitch (if |now - s.lastTime| > 0.016 then
      { s with lastTime := now } else s) now a).micOn = s.micOn := by
    rw [detectPitch_micOn]; split_ifs <;> rfl
  have hl2 : (detectPitch (if |now - s.lastTime| > 0.016 then
      { s with lastTime := now } else s) now a).latestPitch =
      (detectPitch s now a).latestPitch := by
    split_ifs <;> exact detectPitch_latestPitch_congr now a rfl rfl
  have hp2 : (detectPitch (if |now - s.lastTime| > 0.016 then
      { s with lastTime := now } else s) now a).pitchSamples = s.pitchSamples := by
    rw [detectPitch_pitchSamples]; split_ifs <;> rfl
  rw [apply_ite (fun st : GameState => st.pitchSamples k)]
  dsimp only
  rw [hm2, hl2, hp2]

theorem scoreStep_empty_miss {now : ℝ} {st : GameState} {w : IndexedWord}
    (h1 : now > w.endTime) (h2 : st.scoredResults w.key = none)
    (h3 : st.pitchSamples w.key = none) :
    scoreStep now st w =
      { st with
        scoredResults := setKey st.scoredResults w.key ⟨Judgement.MISS, now⟩
        pitchSamples := delKey st.pitchSamples w.key
        combo := 0
        scorePopups := sliceLast3 st.scorePopups ++ [⟨Judgement.MISS, 0⟩] } := by
  unfold scoreStep
  rw [if_neg (not_le.mpr h1), if_neg (by rw [h2]; simp)]
  dsimp only
  rw [h3]
  have hsw : scoreWord ((none : Option (List ℝ)).getD []) w.midi =
      (Judgement.MISS, 0) := rfl
  rw [hsw]
  dsimp only
  rw [if_neg]
  intro hc
  exact absurd hc.1 (lt_irrefl 0)

theorem loop_degenerate_note (w : IndexedWord) (s : GameState) (now : ℝ)
    (a : Option ℝ) (h1 : now > w.endTime)
    (h2 : s.scoredResults w.key = none) (h3 : s.pitchSamples w.key = none) :
    (loop [w] s now a).scoredResults w.key = some ⟨Judgement.MISS, now⟩ ∧
    (loop [w] s now a).combo = 0 ∧
    (loop [w] s now a).score = s.score := by
  have hps : (preScore [w] s now a).pitchSamples w.key = none := by
    rw [preScore_pitchSamples_at]
    split_ifs with hc
    · rw [collectSamples_mem now _ [w] s.pitchSamples w
        (List.mem_singleton_self _) (by simp)]
      rw [if_neg fun hcon => absurd hcon.2 (not_le.mpr h1)]
      exact h3
    · exact h3
  have hrec : (preScore [w] s now a).scoredResults w.key = none := by
    rw [preScore_scoredResults]; exact h2
  rw [loop_eq_foldl, List.foldl_cons, List.foldl_nil,
    scoreStep_empty_miss h1 hrec hps]
  refine ⟨?_, rfl, ?_⟩
  · dsimp only
    simp [setKey]
  · dsimp only
    rw [preScore_score]

/-- Claim C4 counterexample: stale reuse does happen. Run a frame at
`t = 0.5` where the analyser yields a valid 440 Hz estimate (the open note
(0,0) with window [0,1] collects it), then a frame at `t = 0.6` where the
estimator reports no pitch (`autoCorrelate`'s silence sentinel `-1`). The
claim says nothing is appended on the second frame; in fact the stored
latest frequency 440 is appended again, leaving the pending list
`[440, 440]` instead of `[440]`. -/
theorem claim_C4_counterexample :
    (loop [⟨0, 1, 69, 0, 0⟩]
      (loop [⟨0, 1, 69, 0, 0⟩] baseState 0.5 (some 440)) 0.6 (some (-1))
    ).pitchSamples (0, 0) = some [440, 440] := by
  have hmemw : (⟨0, 1, 69, 0, 0⟩ : IndexedWord) ∈ [(⟨0, 1, 69, 0, 0⟩ : IndexedWord)] :=
    List.mem_singleton_self _
  have hndw : List.Nodup ([(⟨0, 1, 69, 0, 0⟩ : IndexedWord)].map IndexedWord.key) := by
    simp
  have hd : (detectPitch baseState 0.5 (some 440)).latestPitch =
      (⟨440, 0.5⟩ : LatestPitch) := by
    rw [detectPitch_latestPitch]
    dsimp only
    rw [if_pos]
    exact ⟨rfl, by norm_num⟩
  have h1m : (loop [⟨0, 1, 69, 0, 0⟩] baseState 0.5 (some 440)).micOn = true :=
    loop_micOn _ _ _ _
  have h1l : (loop [⟨0, 1, 69, 0, 0⟩] baseState 0.5 (some 440)).latestPitch =
      (⟨440, 0.5⟩ : LatestPitch) := by
    rw [loop_latestPitch, hd]
  have hcl05 : ∀ v ∈ [(⟨0, 1, 69, 0, 0⟩ : IndexedWord)],
      v.key = ((0, 0) : Key) → (0.5 : ℝ) ≤ v.endTime := by
    intro v hv _
    rw [List.mem_singleton] at hv
    rw [hv]
    norm_num
  have h1p : (loop [⟨0, 1, 69, 0, 0⟩] baseState 0.5 (some 440)).pitchSamples (0, 0) =
      some [440] := by
    rw [loop_pitchSamples_char _ _ _ _ _ hcl05, hd]
    dsimp only
    rw [if_pos ⟨rfl, by norm_num⟩]
    have hm := collectSamples_mem 0.5 440 [(⟨0, 1, 69, 0, 0⟩ : IndexedWord)]
      baseState.pitchSamples ⟨0, 1, 69, 0, 0⟩ hmemw hndw
    have hm' : collectSamples [(⟨0, 1, 69, 0, 0⟩ : IndexedWord)] 0.5 440
        baseState.pitchSamples ((0, 0) : Key) =
        (if (0.5 : ℝ) ≥ 0 ∧ (0.5 : ℝ) ≤ 1 then
          some (((baseState.pitchSamples ((0, 0) : Key)).getD []) ++ [440])
        else baseState.pitchSamples ((0, 0) : Key)) := hm
    rw [hm', if_pos ⟨by norm_num, by norm_num⟩]
    rfl
  have hstale : (some (-1 : ℝ) = none ∨ ∀ f : ℝ, some (-1 : ℝ) = some f → f ≤ 0) := by
    right
    intro f hf
    injection hf with h
    rw [← h]
    norm_num
  have h2d := detectPitch_latest_stale
    (loop [⟨0, 1, 69, 0, 0⟩] baseState 0.5 (some 440)) 0.6 (some (-1)) hstale
  rw [h1l] at h2d
  have hcl06 : ∀ v ∈ [(⟨0, 1, 69, 0, 0⟩ : IndexedWord)],
      v.key = ((0, 0) : Key) → (0.6 : ℝ) ≤ v.endTime := by
    intro v hv _
    rw [List.mem_singleton] at hv
    rw [hv]
    norm_num
  rw [loop_pitchSamples_char _ _ _ _ _ hcl06, h2d]
  dsimp only
  rw [if_pos ⟨h1m, by norm_num⟩]
  have hm2 := collectSamples_mem 0.6 440 [(⟨0, 1, 69, 0, 0⟩ : IndexedWord)]
    (loop [⟨0, 1, 69, 0, 0⟩] baseState 0.5 (some 440)).pitchSamples
    ⟨0, 1, 69, 0, 0⟩ hmemw hndw
  have hm2' : collectSamples [(⟨0, 1, 69, 0, 0⟩ : IndexedWord)] 0.6 440
      (loop [⟨0, 1, 69, 0, 0⟩] baseState 0.5 (some 440)).pitchSamples ((0, 0) : Key) =
      (if (0.6 : ℝ) ≥ 0 ∧ (0.6 : ℝ) ≤ 1 then
        some ((((loop [⟨0, 1, 69, 0, 0⟩] baseState 0.5 (some 440)).pitchSamples
          ((0, 0) : Key)).getD []) ++ [440])
      else (loop [⟨0, 1, 69, 0, 0⟩] baseState 0.5 (some 440)).pitchSamples
        ((0, 0) : Key)) := hm2
  rw [hm2', if_pos ⟨by norm_num, by norm_num⟩, h1p]
  rfl

/-- Claim C4 (amended): stale reuse is not prevented. The collection phase
appends the single-slot latest frequency to every Note whose window contains
`now` whenever the microphone is on and that stored frequency is positive —
including on frames where the estimator reported no new pitch, since the
slot keeps its previous value (third conjunct). When a new valid sample does
arrive it replaces the slot and is appended to exactly those Notes whose
window `[startTime, endTime]` contains `now`; Notes whose window has not
started are untouched. -/
theorem claim_C4 (words : List IndexedWord) (s : GameState) (now : ℝ)
    (a : Option ℝ) (w : IndexedWord) (hwf : w.startTime ≤ w.endTime)
    (hnd : List.Nodup (words.map IndexedWord.key)) (hw : w ∈ words) :
    ((w.startTime ≤ now ∧ now ≤ w.endTime) →
      (loop words s now a).pitchSamples w.key =
        (if s.micOn = true ∧ (detectPitch s now a).latestPitch.frequency > 0 then
          some (((s.pitchSamples w.key).getD []) ++
            [(detectPitch s now a).latestPitch.frequency])
        else s.pitchSamples w.key)) ∧
    (now < w.startTime →
      (loop words s now a).pitchSamples w.key = s.pitchSamples w.key) ∧
    ((a = none ∨ ∀ f : ℝ, a = some f → f ≤ 0) →
      (detectPitch s now a).latestPitch = s.latestPitch) := by
  refine ⟨?_, ?_, detectPitch_latest_stale s now a⟩
  · intro hopen
    have hself : ∀ v ∈ words, v.key = w.key → now ≤ v.endTime := by
      intro v hv he
      have hvw : v = w := List.inj_on_of_nodup_map hnd hv hw he
      rw [hvw]
      exact hopen.2
    rw [loop_pitchSamples_char words s now a w.key hself]
    split_ifs with hc
    · rw [collectSamples_mem now _ words s.pitchSamples w hw hnd,
        if_pos ⟨hopen.1, hopen.2⟩]
    · rfl
  · intro hfut
    have hself : ∀ v ∈ words, v.key = w.key → now ≤ v.endTime := by
      intro v hv he
      have hvw : v = w := List.inj_on_of_nodup_map hnd hv hw he
      rw [hvw]
      exact le_trans (le_of_lt hfut) hwf
    rw [loop_pitchSamples_char words s now a w.key hself]
    split_ifs with hc
    · rw [collectSamples_mem now _ words s.pitchSamples w hw hnd, if_neg]
      intro hcon
      exact absurd hcon.1 (not_le.mpr hfut)
    · rfl

theorem claim_C4_witness :
    (loop [⟨0, 1, 69, 0, 0⟩] baseState 0.5 (some 440)).pitchSamples
      ((⟨0, 1, 69, 0, 0⟩ : IndexedWord).key) =
      (if baseState.micOn = true ∧
          (detectPitch baseState 0.5 (some 440)).latestPitch.frequency > 0 then
        some (((baseState.pitchSamples ((⟨0, 1, 69, 0, 0⟩ : IndexedWord).key)).getD []) ++
          [(detectPitch baseState 0.5 (some 440)).latestPitch.frequency])
      else baseState.pitchSamples ((⟨0, 1, 69, 0, 0⟩ : IndexedWord).key)) :=
  (claim_C4 [⟨0, 1, 69, 0, 0⟩] baseState 0.5 (some 440) ⟨0, 1, 69, 0, 0⟩
    (by norm_num) (by simp) (List.mem_singleton_self _)).1 ⟨by norm_num, by norm_num⟩

theorem scoreWord_cases (samples : List ℝ) (midi : ℝ) :
    scoreWord samples midi = (Judgement.MISS, 0) ∨
    scoreWord samples midi = (Judgement.PERFECT, 100) ∨
    scoreWord samples midi = (Judgement.GREAT, 75) ∨
    scoreWord samples midi = (Judgement.GOOD, 50) := by
  unfold scoreWord
  dsimp only
  rcases hbs : bestSample (midiToFreq midi) samples with _ | bc
  · exact Or.inl rfl
  · dsimp only
    split_ifs <;> simp

theorem scoreWord_basePoints (samples : List ℝ) (midi : ℝ) :
    basePointsOf (scoreWord samples midi).1 = (scoreWord samples midi).2 := by
  rcases scoreWord_cases samples midi with h | h | h | h <;> rw [h] <;> rfl

/-- Claim C3: whenever a Note is finalized, exactly one judgement event is
appended to the event stream (`setScorePopups`); if that event is a MISS the
combo becomes 0 and the score is unchanged, and if it is PERFECT/GREAT/GOOD
(which requires base points > 0 and the microphone enabled) the granted
points are `round(basePoints * min(2, 1 + combo * 0.1))` computed with the
combo value before the event, the score grows by exactly those points, and
the combo then grows by exactly 1. -/
theorem claim_C3 (now : ℝ) (st : GameState) (w : IndexedWord)
    (h1 : now > w.endTime) (h2 : st.scoredResults w.key = none) :
    ∃ e : ScoreEvent,
      (scoreStep now st w).scorePopups = sliceLast3 st.scorePopups ++ [e] ∧
      (e.type = Judgement.MISS →
        (scoreStep now st w).combo = 0 ∧ (scoreStep now st w).score = st.score) ∧
      (e.type ≠ Judgement.MISS →
        e.points = round (basePointsOf e.type * min 2 (1 + (st.combo : ℝ) * 0.1)) ∧
        (scoreStep now st w).score = st.score + (e.points : ℝ) ∧
        (scoreStep now st w).combo = st.combo + 1) := by
  unfold scoreStep
  rw [if_neg (not_le.mpr h1), if_neg (by rw [h2]; simp)]
  dsimp only
  by_cases hc : (scoreWord ((st.pitchSamples w.key).getD []) w.midi).2 > 0 ∧
      st.micOn = true
  · rw [if_pos hc]
    refine ⟨⟨(scoreWord ((st.pitchSamples w.key).getD []) w.midi).1,
      round ((scoreWord ((st.pitchSamples w.key).getD []) w.midi).2 *
        min 2 (1 + (st.combo : ℝ) * 0.1))⟩, rfl, ?_, ?_⟩
    · intro hmiss
      exfalso
      have hbp := hc.1
      rcases scoreWord_cases ((st.pitchSamples w.key).getD []) w.midi with
        h4 | h4 | h4 | h4 <;> rw [h4] at hmiss hbp <;> simp_all
    · intro hne
      refine ⟨?_, rfl, rfl⟩
      rw [scoreWord_basePoints]
  · rw [if_neg hc]
    exact ⟨⟨Judgement.MISS, 0⟩, rfl, fun _ => ⟨rfl, rfl⟩,
      fun hne => absurd rfl hne⟩

theorem claim_C3_witness :
    ∃ e : ScoreEvent,
      (scoreStep 2 baseState ⟨0, 1, 69, 0, 0⟩).scorePopups =
        sliceLast3 baseState.scorePopups ++ [e] ∧
      (e.type = Judgement.MISS →
        (scoreStep 2 baseState ⟨0, 1, 69, 0, 0⟩).combo = 0 ∧
        (scoreStep 2 baseState ⟨0, 1, 69, 0, 0⟩).score = baseState.score) ∧
      (e.type ≠ Judgement.MISS →
        e.points = round (basePointsOf e.type * min 2 (1 + (baseState.combo : ℝ) * 0.1)) ∧
        (scoreStep 2 baseState ⟨0, 1, 69, 0, 0⟩).score = baseState.score + (e.points : ℝ) ∧
        (scoreStep 2 baseState ⟨0, 1, 69, 0, 0⟩).combo = baseState.combo + 1) :=
  claim_C3 2 baseState ⟨0, 1, 69, 0, 0⟩ (by norm_num) rfl

theorem claim_C1_witness :
    (loop [⟨0, 1, 69, 0, 0⟩]
      { baseState with scoredResults :=
          fun q => if q = ((0, 0) : Key) then some ⟨Judgement.PERFECT, 1⟩ else none }
      2 none).scoredResults (0, 0) = some ⟨Judgement.PERFECT, 1⟩ :=
  claim_C1 _ _ _ _ _ _ (by simp)

/-- Claim C6 counterexample: a Note with `endTime ≤ startTime` (here the
degenerate window [1, 0.5]) is NOT excluded from scoring: once `now` passes
its `endTime` the judgement pass creates a Note Scoring Record for it
(a MISS, since the impossible window can never collect samples) and resets
the combo — here from 5 to 0 — contradicting "never judged" and "never
alters combo". No crash occurs, and the score is untouched. -/
theorem claim_C6_counterexample :
    (loop [⟨1, 0.5, 69, 0, 0⟩] { baseState with combo := 5 } 2 none).scoredResults
      (0, 0) = some ⟨Judgement.MISS, 2⟩ ∧
    (loop [⟨1, 0.5, 69, 0, 0⟩] { baseState with combo := 5 } 2 none).combo = 0 ∧
    ({ baseState with combo := 5 } : GameState).combo = 5 :=
  ⟨(loop_degenerate_note ⟨1, 0.5, 69, 0, 0⟩ { baseState with combo := 5 } 2 none
      (by norm_num) rfl rfl).1,
   (loop_degenerate_note ⟨1, 0.5, 69, 0, 0⟩ { baseState with combo := 5 } 2 none
      (by norm_num) rfl rfl).2.1,
   rfl⟩

/-- Claim C6 (amended): a Note with `endTime < startTime` is not validated
away. Its impossible window means no time ever lies inside it, so it never
accumulates samples and frames up to its `endTime` leave its pending list
unchanged; but once `now` exceeds its `endTime` it IS judged like any other
Note: a MISS record is created for it, the combo is reset to 0, and the
score is unchanged. Processing never crashes (the model is total). -/
theorem claim_C6 (w : IndexedWord) (s : GameState) (now : ℝ) (a : Option ℝ)
    (hdeg : w.endTime < w.startTime) :
    (¬ (w.startTime ≤ now ∧ now ≤ w.endTime)) ∧
    (now ≤ w.endTime →
      (loop [w] s now a).pitchSamples w.key = s.pitchSamples w.key) ∧
    (now > w.endTime → s.scoredResults w.key = none →
      s.pitchSamples w.key = none →
      (loop [w] s now a).scoredResults w.key = some ⟨Judgement.MISS, now⟩ ∧
      (loop [w] s now a).combo = 0 ∧
      (loop [w] s now a).score = s.score) := by
  refine ⟨?_, ?_, ?_⟩
  · intro hc
    exact absurd (le_trans hc.1 hc.2) (not_le.mpr hdeg)
  · intro hle
    have hcl : ∀ v ∈ [w], v.key = w.key → now ≤ v.endTime := by
      intro v hv _
      rw [List.mem_singleton] at hv
      rw [hv]
      exact hle
    rw [loop_pitchSamples_char _ _ _ _ _ hcl]
    split_ifs with hc
    · rw [collectSamples_mem now _ [w] s.pitchSamples w
        (List.mem_singleton_self _) (by simp)]
      rw [if_neg fun hcon => absurd (le_trans hcon.1 hcon.2) (not_le.mpr hdeg)]
    · rfl
  · intro h1 h2 h3
    exact loop_degenerate_note w s now a h1 h2 h3

theorem claim_C6_witness :
    (loop [⟨1, 0.5, 69, 0, 0⟩] { baseState with combo := 5 } 2 none).scoredResults
      ((⟨1, 0.5, 69, 0, 0⟩ : IndexedWord).key) = some ⟨Judgement.MISS, 2⟩ ∧
    (loop [⟨1, 0.5, 69, 0, 0⟩] { baseState with combo := 5 } 2 none).combo = 0 ∧
    (loop [⟨1, 0.5, 69, 0, 0⟩] { baseState with combo := 5 } 2 none).score =
      ({ baseState with combo := 5 } : GameState).score :=
  (claim_C6 ⟨1, 0.5, 69, 0, 0⟩ { baseState with combo := 5 } 2 none
    (by norm_num)).2.2 (by norm_num) rfl rfl

theorem bestSample_from_some (t : ℝ) :
    ∀ (l : List ℝ) (c f : ℝ), c = |1200 * Real.logb 2 (f / t)| →
      ∃ p : ℝ × ℝ, l.foldl (bestStep t) (some (c, f)) = some p ∧
        (p.2 = f ∨ p.2 ∈ l) ∧ p.1 = |1200 * Real.logb 2 (p.2 / t)| ∧
        p.1 ≤ c ∧ ∀ g ∈ l, p.1 ≤ |1200 * Real.logb 2 (g / t)| := by
  intro l
  induction l with
  | nil =>
    intro c f hc
    exact ⟨(c, f), rfl, Or.inl rfl, hc, le_refl _, fun g hg => absurd hg (List.not_mem_nil _)⟩
  | cons x xs ih =>
    intro c f hc
    rw [List.foldl_cons]
    by_cases hx : |1200 * Real.logb 2 (x / t)| < c
    · have hstep : bestStep t (some (c, f)) x =
          some (|1200 * Real.logb 2 (x / t)|, x) := by
        unfold bestStep
        dsimp only
        rw [if_pos hx]
      rw [hstep]
      obtain ⟨p, hp, hmem, hpc, hple, hall⟩ := ih _ x rfl
      refine ⟨p, hp, ?_, hpc, le_trans hple (le_of_lt hx), ?_⟩
      · rcases hmem with h | h
        · exact Or.inr (by rw [h]; exact List.mem_cons_self _ _)
        · exact Or.inr (List.mem_cons_of_mem _ h)
      · intro g hg
        rcases List.mem_cons.mp hg with h | h
        · rw [h]; exact hple
        · exact hall g h
    · have hstep : bestStep t (some (c, f)) x = some (c, f) := by
        unfold bestStep
        dsimp only
        rw [if_neg hx]
      rw [hstep]
      obtain ⟨p, hp, hmem, hpc, hple, hall⟩ := ih c f hc
      refine ⟨p, hp, ?_, hpc, hple, ?_⟩
      · rcases hmem with h | h
        · exact Or.inl h
        · exact Or.inr (List.mem_cons_of_mem _ h)
      · intro g hg
        rcases List.mem_cons.mp hg with h | h
        · rw [h]; exact le_trans hple (not_lt.mp hx)
        · exact hall g h

theorem bestSample_char (t : ℝ) (l : List ℝ) (hne : l ≠ []) :
    ∃ p : ℝ × ℝ, bestSample t l = some p ∧ p.2 ∈ l ∧
      p.1 = |1200 * Real.logb 2 (p.2 / t)| ∧
      ∀ g ∈ l, p.1 ≤ |1200 * Real.logb 2 (g / t)| := by
  rcases l with _ | ⟨x, xs⟩
  · exact absurd rfl hne
  · unfold bestSample
    rw [List.foldl_cons,
      show bestStep t none x = some (|1200 * Real.logb 2 (x / t)|, x) from rfl]
    obtain ⟨p, hp, hmem, hpc, hple, hall⟩ := bestSample_from_some t xs _ x rfl
    refine ⟨p, hp, ?_, hpc, ?_⟩
    · rcases hmem with h | h
      · rw [h]; exact List.mem_cons_self _ _
      · exact List.mem_cons_of_mem _ h
    · intro g hg
      rcases List.mem_cons.mp hg with h | h
      · rw [h]; exact hple
      · exact hall g h

theorem scoreWord_char (samples : List ℝ) (midi : ℝ)
    (hpos : ∀ f ∈ samples, 0 < f) (hne : samples ≠ []) :
    ∃ f₀ ∈ samples,
      (∀ g ∈ samples, |1200 * Real.logb 2 (f₀ / midiToFreq midi)| ≤
        |1200 * Real.logb 2 (g / midiToFreq midi)|) ∧
      scoreWord samples midi =
        specTier (|1200 * Real.logb 2 (f₀ / midiToFreq midi)|) := by
  obtain ⟨p, hp, hmem, hpc, hall⟩ := bestSample_char (midiToFreq midi) samples hne
  refine ⟨p.2, hmem, ?_, ?_⟩
  · intro g hg
    rw [← hpc]
    exact hall g hg
  · unfold scoreWord
    dsimp only
    rw [hp]
    dsimp only
    rw [if_pos (hpos p.2 hmem), hpc]
    unfold specTier
    rfl

theorem scoreStep_sets_record {now : ℝ} {st : GameState} {w : IndexedWord}
    (h1 : now > w.endTime) (h2 : st.scoredResults w.key = none) :
    (scoreStep now st w).scoredResults w.key =
      some ⟨(scoreWord ((st.pitchSamples w.key).getD []) w.midi).1, now⟩ := by
  unfold scoreStep
  rw [if_neg (not_le.mpr h1), if_neg (by rw [h2]; simp)]
  dsimp only
  split_ifs <;> simp [setKey]

theorem loop_records_scoreWord (w : IndexedWord) (s : GameState) (now : ℝ)
    (h1 : now > w.endTime) (h2 : s.scoredResults w.key = none) :
    (loop [w] s now none).scoredResults w.key =
      some ⟨(scoreWord ((s.pitchSamples w.key).getD []) w.midi).1, now⟩ := by
  rw [loop_eq_foldl, List.foldl_cons, List.foldl_nil]
  have hrec : (preScore [w] s now none).scoredResults w.key = none := by
    rw [preScore_scoredResults]; exact h2
  have hps : (preScore [w] s now none).pitchSamples w.key = s.pitchSamples w.key := by
    rw [preScore_pitchSamples_at]
    split_ifs with hc
    · rw [collectSamples_mem now _ [w] s.pitchSamples w
        (List.mem_singleton_self _) (by simp)]
      rw [if_neg fun hcon => absurd hcon.2 (not_le.mpr h1)]
    · rfl
  rw [scoreStep_sets_record h1 hrec, hps]

/-- Claim C2 counterexample: the "input disabled ⇒ MISS" part is false for
the stored judgement. With the microphone off at finalization time but a
previously collected on-pitch sample `[440]` for Note (0,0) with target MIDI
69 (440 Hz, so minimum cents is 0), the frame past the window's end stores a
PERFECT record — not a MISS. (Only the score/combo update treats the event
as a MISS in this situation.) -/
theorem claim_C2_counterexample :
    ({ baseState with
        micOn := false
        pitchSamples := fun q =>
          if q = ((0, 0) : Key) then some [440] else none } : GameState).micOn =
      false ∧
    (loop [⟨0, 1, 69, 0, 0⟩]
      { baseState with
        micOn := false
        pitchSamples := fun q =>
          if q = ((0, 0) : Key) then some [440] else none }
      2 none).scoredResults (0, 0) = some ⟨Judgement.PERFECT, 2⟩ := by
  refine ⟨rfl, ?_⟩
  have h := loop_records_scoreWord ⟨0, 1, 69, 0, 0⟩
    { baseState with
      micOn := false
      pitchSamples := fun q =>
        if q = ((0, 0) : Key) then some [440] else none }
    2 (by norm_num) rfl
  have htf : midiToFreq 69 = 440 := by
    unfold midiToFreq
    norm_num
  have hsw : scoreWord [(440 : ℝ)] 69 = (Judgement.PERFECT, 100) := by
    unfold scoreWord bestSample
    dsimp only
    rw [htf, List.foldl_cons, List.foldl_nil,
      show bestStep (440 : ℝ) none 440 =
        some (|1200 * Real.logb 2 (440 / 440)|, 440) from rfl]
    dsimp only
    norm_num
  have hpsv : (({ baseState with
      micOn := false
      pitchSamples := fun q =>
        if q = ((0, 0) : Key) then some [440] else none } : GameState).pitchSamples
      ((⟨0, 1, 69, 0, 0⟩ : IndexedWord).key)).getD [] = [(440 : ℝ)] := rfl
  rw [hpsv] at h
  have h2 : (loop [⟨0, 1, 69, 0, 0⟩]
      { baseState with
        micOn := false
        pitchSamples := fun q =>
          if q = ((0, 0) : Key) then some [440] else none }
      2 none).scoredResults (0, 0) = some ⟨(scoreWord [(440 : ℝ)] 69).1, 2⟩ := h
  rw [h2, hsw]

/-- Claim C2 (amended): when a Note's window first closes, the stored
judgement is determined by the minimum absolute cents deviation over its
collected samples — `cents = 1200 * log2(f / freq)` with
`freq = 440 * 2^((midi - 69) / 12)` — via the tier table minimum `< 10` ⇒
PERFECT (100), `< 25` ⇒ GREAT (75), `< 50` ⇒ GOOD (50), otherwise or with
zero samples ⇒ MISS (0); and this stored judgement is independent of the
microphone state at finalization time (the mic only gates the score/combo
update, not the record). -/
theorem claim_C2 (samples : List ℝ) (midi : ℝ) (hpos : ∀ f ∈ samples, 0 < f) :
    (scoreWord [] midi = (Judgement.MISS, 0)) ∧
    (samples ≠ [] →
      ∃ f₀ ∈ samples,
        (∀ g ∈ samples, |1200 * Real.logb 2 (f₀ / midiToFreq midi)| ≤
          |1200 * Real.logb 2 (g / midiToFreq midi)|) ∧
        scoreWord samples midi =
          specTier (|1200 * Real.logb 2 (f₀ / midiToFreq midi)|)) ∧
    (∀ (w : IndexedWord) (s : GameState) (now : ℝ), now > w.endTime →
      s.scoredResults w.key = none → s.pitchSamples w.key = some samples →
      (loop [w] s now none).scoredResults w.key =
        some ⟨(scoreWord samples w.midi).1, now⟩) := by
  refine ⟨rfl, fun hne => scoreWord_char samples midi hpos hne, ?_⟩
  intro w s now h1 h2 h3
  rw [loop_records_scoreWord w s now h1 h2, h3]
  rfl

theorem claim_C2_witness :
    scoreWord [] (69 : ℝ) = (Judgement.MISS, 0) ∧
    (∃ f₀ ∈ [(440 : ℝ)],
      (∀ g ∈ [(440 : ℝ)], |1200 * Real.logb 2 (f₀ / midiToFreq 69)| ≤
        |1200 * Real.logb 2 (g / midiToFreq 69)|) ∧
      scoreWord [(440 : ℝ)] 69 =
        specTier (|1200 * Real.logb 2 (f₀ / midiToFreq 69)|)) :=
  ⟨(claim_C2 [(440 : ℝ)] 69 (by norm_num)).1,
   (claim_C2 [(440 : ℝ)] 69 (by norm_num)).2.1 (by simp)⟩

/-- Claim C9 counterexample: `autoCorrelate` never validates the buffer
length. The analyser always hands it `fftSize = 2048` samples, but on a
wrong-length buffer — here the 4-sample buffer `[1, 1, 1, 1]` — it does not
return the no-pitch sentinel: it runs the full algorithm (trims the final
sample, autocorrelates `[1, 1, 1]` to `[3, 2, 1]`, skips the descent to
lag 2) and returns the positive frequency `44100 / 2 = 22050`, which the
caller treats as a valid pitch. -/
theorem claim_C9_counterexample :
    autoCorrelate [1, 1, 1, 1] 44100 = 22050 ∧
    ¬ (autoCorrelate [1, 1, 1, 1] 44100 ≤ 0) := by
  have hrms : rmsOf [(1 : ℝ), 1, 1, 1] = 1 := by
    unfold rmsOf
    norm_num
  have hr1 : r1Of [(1 : ℝ), 1, 1, 1] = 0 := by
    have h0 : r1Of [(1 : ℝ), 1, 1, 1] =
        (if |(1 : ℝ)| < 0.2 then 0 else if |(1 : ℝ)| < 0.2 then 1 else 0) := rfl
    rw [h0]
    norm_num
  have hr2 : r2Of [(1 : ℝ), 1, 1, 1] = 3 := by
    have h0 : r2Of [(1 : ℝ), 1, 1, 1] = (if |(1 : ℝ)| < 0.2 then 3 else 3) := rfl
    rw [h0, ite_self]
  have htrim : trimmed [(1 : ℝ), 1, 1, 1] = [1, 1, 1] := by
    unfold trimmed
    rw [hr1, hr2]
    rfl
  have hc : autocorrOf [(1 : ℝ), 1, 1] = [3, 2, 1] := by
    have h0 : autocorrOf [(1 : ℝ), 1, 1] =
        [[(1 : ℝ) * 1, 1 * 1, 1 * 1].sum, [(1 : ℝ) * 1, 1 * 1].sum,
          [(1 : ℝ) * 1].sum] := rfl
    rw [h0]
    norm_num
  have hd : descentEnd [(3 : ℝ), 2, 1] = 2 := by
    have h0 : descentEnd [(3 : ℝ), 2, 1] =
        (if 1 < 3 ∧ (3 : ℝ) > 2 then
          if 2 < 3 ∧ (2 : ℝ) > 1 then
            if 3 < 3 ∧ (1 : ℝ) > 0 then
              if 4 < 3 ∧ (0 : ℝ) > 0 then 0 else 3
            else 2
          else 1
        else 0) := rfl
    rw [h0]
    norm_num
  have hmax : (maxFrom [(3 : ℝ), 2, 1] 2).2 = 2 := by
    have h0 : maxFrom [(3 : ℝ), 2, 1] 2 =
        (if (1 : ℝ) > -1 then ((1 : ℝ), (2 : ℤ)) else (-1, -1)) := rfl
    rw [h0]
    norm_num
  have hval : autoCorrelate [1, 1, 1, 1] 44100 = 22050 := by
    unfold autoCorrelate
    rw [if_neg (by rw [hrms]; norm_num)]
    dsimp only
    rw [htrim, hc, hd, hmax]
    norm_num
  exact ⟨hval, by rw [hval]; norm_num⟩

/-- Claim C9 (amended): for every nonempty silent buffer — RMS energy below
the fixed 0.01 threshold, which includes every nonempty all-zero buffer —
the Pitch Estimator returns the no-pitch sentinel `-1`, and being a total
function it never raises. Buffer validity is NOT checked: a wrong-length
buffer is processed normally and can return a positive frequency (see the
counterexample), and an empty buffer reaches a 0/0 RMS computation
(`NaN` in the original JavaScript) rather than a length guard. -/
theorem claim_C9 (buffer : List ℝ) (sampleRate : ℝ) (hne : buffer ≠ []) :
    (rmsOf buffer < 0.01 → autoCorrelate buffer sampleRate = -1) ∧
    ((∀ x ∈ buffer, x = 0) → autoCorrelate buffer sampleRate = -1) := by
  constructor
  · intro h
    unfold autoCorrelate
    rw [if_pos h]
  · intro hz
    unfold autoCorrelate
    rw [if_pos]
    have hsum : (buffer.map fun x => x * x).sum = 0 := by
      apply List.sum_eq_zero
      intro y hy
      rw [List.mem_map] at hy
      obtain ⟨x, hx, hxy⟩ := hy
      rw [← hxy, hz x hx]
      ring
    unfold rmsOf
    rw [hsum]
    norm_num

theorem claim_C9_witness :
    autoCorrelate [0, 0, 0] 44100 = -1 :=
  (claim_C9 [0, 0, 0] 44100 (by simp)).2 (by simp)

theorem chain_end_lt_start (lyrics : List LyricsLine)
    (hse : ∀ l ∈ lyrics, l.startTime ≤ l.endTime)
    (hch : List.Chain' (fun a b => a.endTime < b.startTime) lyrics) :
    ∀ (i j : ℕ), ∀ (hi : i < lyrics.length) (hj : j < lyrics.length), i < j →
      (lyrics.get ⟨i, hi⟩).endTime < (lyrics.get ⟨j, hj⟩).startTime := by
  have hstep : ∀ (m : ℕ) (hm : m + 1 < lyrics.length),
      (lyrics.get ⟨m, by omega⟩).endTime < (lyrics.get ⟨m + 1, hm⟩).startTime := by
    intro m hm
    exact List.chain'_iff_get.mp hch m (by omega)
  intro i j
  induction j with
  | zero => intro hi hj hij; omega
  | succ m ihm =>
    intro hi hj hij
    rcases Nat.lt_succ_iff_lt_or_eq.mp hij with him | heq
    · have hm' : m < lyrics.length := by omega
      have h1 := ihm hi hm' him
      have h2 := hse _ (List.get_mem lyrics m hm')
      have h3 := hstep m hj
      linarith
    · subst heq
      exact hstep i hj

theorem chain_start_le_start (lyrics : List LyricsLine)
    (hse : ∀ l ∈ lyrics, l.startTime ≤ l.endTime)
    (hch : List.Chain' (fun a b => a.endTime < b.startTime) lyrics) :
    ∀ (i j : ℕ), ∀ (hi : i < lyrics.length) (hj : j < lyrics.length), i ≤ j →
      (lyrics.get ⟨i, hi⟩).startTime ≤ (lyrics.get ⟨j, hj⟩).startTime := by
  intro i j hi hj hij
  rcases Nat.lt_or_ge i j with h | h
  · have h1 := chain_end_lt_start lyrics hse hch i j hi hj h
    have h2 := hse _ (List.get_mem lyrics i hi)
    linarith
  · have heq : i = j := le_antisymm hij h
    subst heq
    exact le_refl _

theorem findLyricScan_skip (time : ℝ) :
    ∀ lyrics : List LyricsLine,
      (∀ l ∈ lyrics, l.startTime ≤ l.endTime) →
      List.Chain' (fun a b => a.endTime < b.startTime) lyrics →
      ∀ (i : ℕ) (hi : i < lyrics.length) (i0 : ℕ),
      (lyrics.get ⟨i, hi⟩).startTime ≤ time →
      findLyricScan time lyrics i0 = findLyricScan time (lyrics.drop i) (i0 + i) := by
  intro lyrics
  induction lyrics with
  | nil => intro _ _ i hi; exact absurd hi (by simp)
  | cons line rest ih =>
    intro hse hch i hi i0 hst
    cases i with
    | zero => simp
    | succ k =>
      have hk : k < rest.length := by
        have hlen := hi
        simp only [List.length_cons] at hlen
        omega
      have hst' : (rest.get ⟨k, hk⟩).startTime ≤ time := hst
      rcases rest with _ | ⟨next, rest2⟩
      · simp at hk
      · have hse' : ∀ l ∈ next :: rest2, l.startTime ≤ l.endTime :=
          fun l hl => hse l (List.mem_cons_of_mem _ hl)
        have hch' : List.Chain' (fun a b => a.endTime < b.startTime) (next :: rest2) :=
          hch.tail
        have hnext_le : next.startTime ≤ time := by
          have h0 := chain_start_le_start (next :: rest2) hse' hch' 0 k
            (by simp) hk (Nat.zero_le k)
          exact le_trans h0 hst'
        have hline_lt : line.endTime < time := by
          have hc2 : line.endTime < next.startTime := (List.chain'_cons.mp hch).1
          linarith
        rw [show findLyricScan time (line :: next :: rest2) i0 =
          (if time ≥ line.startTime ∧ time ≤ line.endTime then (i0 : ℤ)
           else if time > line.endTime then
             (if time < next.startTime then
               (if time ≤ line.endTime + 0.5 then (i0 : ℤ)
                else if next.startTime - line.endTime ≤ 3.0 then (i0 : ℤ) + 1
                else -1)
             else findLyricScan time (next :: rest2) (i0 + 1))
           else findLyricScan time (next :: rest2) (i0 + 1)) from rfl]
        rw [if_neg (fun hc => absurd hc.2 (not_le.mpr hline_lt)), if_pos hline_lt,
          if_neg (not_lt.mpr hnext_le)]
        have hdrop : (line :: next :: rest2).drop (k + 1) = (next :: rest2).drop k := rfl
        have harith : i0 + (k + 1) = (i0 + 1) + k := by omega
        rw [hdrop, harith]
        exact ih hse' hch' k hk (i0 + 1) hst'

theorem findLyricScan_in_window (time : ℝ) (lyrics : List LyricsLine)
    (hse : ∀ l ∈ lyrics, l.startTime ≤ l.endTime)
    (hch : List.Chain' (fun a b => a.endTime < b.startTime) lyrics)
    (i : ℕ) (hi : i < lyrics.length) (i0 : ℕ)
    (h1 : (lyrics.get ⟨i, hi⟩).startTime ≤ time)
    (h2 : time ≤ (lyrics.get ⟨i, hi⟩).endTime) :
    findLyricScan time lyrics i0 = ((i0 + i : ℕ) : ℤ) := by
  rw [findLyricScan_skip time lyrics hse hch i hi i0 h1]
  have hd1 : lyrics.drop i = lyrics.get ⟨i, hi⟩ :: lyrics.drop (i + 1) :=
    (List.cons_get_drop_succ (l := lyrics) (n := ⟨i, hi⟩)).symm
  rw [hd1]
  rw [findLyricScan.eq_def]
  dsimp only
  rw [if_pos ⟨h1, h2⟩]

theorem findLyricScan_gap (time : ℝ) (lyrics : List LyricsLine)
    (hse : ∀ l ∈ lyrics, l.startTime ≤ l.endTime)
    (hch : List.Chain' (fun a b => a.endTime < b.startTime) lyrics)
    (i : ℕ) (hi : i < lyrics.length) (hi1 : i + 1 < lyrics.length) (i0 : ℕ)
    (h1 : time > (lyrics.get ⟨i, hi⟩).endTime)
    (h2 : time < (lyrics.get ⟨i + 1, hi1⟩).startTime) :
    findLyricScan time lyrics i0 =
      (if time ≤ (lyrics.get ⟨i, hi⟩).endTime + 0.5 then ((i0 + i : ℕ) : ℤ)
       else if (lyrics.get ⟨i + 1, hi1⟩).startTime -
           (lyrics.get ⟨i, hi⟩).endTime ≤ 3.0 then ((i0 + i : ℕ) : ℤ) + 1
       else -1) := by
  have hstart : (lyrics.get ⟨i, hi⟩).startTime ≤ time := by
    have hs := hse _ (List.get_mem lyrics i hi)
    linarith
  rw [findLyricScan_skip time lyrics hse hch i hi i0 hstart]
  have hd1 : lyrics.drop i = lyrics.get ⟨i, hi⟩ :: lyrics.drop (i + 1) :=
    (List.cons_get_drop_succ (l := lyrics) (n := ⟨i, hi⟩)).symm
  have hd2 : lyrics.drop (i + 1) = lyrics.get ⟨i + 1, hi1⟩ :: lyrics.drop (i + 2) :=
    (List.cons_get_drop_succ (l := lyrics) (n := ⟨i + 1, hi1⟩)).symm
  rw [hd1, hd2]
  rw [show findLyricScan time
      (lyrics.get ⟨i, hi⟩ :: lyrics.get ⟨i + 1, hi1⟩ :: lyrics.drop (i + 2)) (i0 + i) =
      (if time ≥ (lyrics.get ⟨i, hi⟩).startTime ∧ time ≤ (lyrics.get ⟨i, hi⟩).endTime
       then ((i0 + i : ℕ) : ℤ)
       else if time > (lyrics.get ⟨i, hi⟩).endTime then
         (if time < (lyrics.get ⟨i + 1, hi1⟩).startTime then
           (if time ≤ (lyrics.get ⟨i, hi⟩).endTime + 0.5 then ((i0 + i : ℕ) : ℤ)
            else if (lyrics.get ⟨i + 1, hi1⟩).startTime -
                (lyrics.get ⟨i, hi⟩).endTime ≤ 3.0 then ((i0 + i : ℕ) : ℤ) + 1
            else -1)
          else findLyricScan time
            (lyrics.get ⟨i + 1, hi1⟩ :: lyrics.drop (i + 2)) (i0 + i + 1))
       else findLyricScan time
         (lyrics.get ⟨i + 1, hi1⟩ :: lyrics.drop (i + 2)) (i0 + i + 1)) from rfl]
  rw [if_neg (fun hc => absurd hc.2 (not_le.mpr h1)), if_pos h1, if_pos h2]

theorem findLyricScan_last (time : ℝ) (lyrics : List LyricsLine)
    (hse : ∀ l ∈ lyrics, l.startTime ≤ l.endTime)
    (hch : List.Chain' (fun a b => a.endTime < b.startTime) lyrics)
    (i : ℕ) (hi : i < lyrics.length) (hlast : i + 1 = lyrics.length) (i0 : ℕ)
    (h1 : time > (lyrics.get ⟨i, hi⟩).endTime) :
    findLyricScan time lyrics i0 =
      (if time ≤ (lyrics.get ⟨i, hi⟩).endTime + 2.0 then ((i0 + i : ℕ) : ℤ)
       else -1) := by
  have hstart : (lyrics.get ⟨i, hi⟩).startTime ≤ time := by
    have hs := hse _ (List.get_mem lyrics i hi)
    linarith
  rw [findLyricScan_skip time lyrics hse hch i hi i0 hstart]
  have hd1 : lyrics.drop i = lyrics.get ⟨i, hi⟩ :: lyrics.drop (i + 1) :=
    (List.cons_get_drop_succ (l := lyrics) (n := ⟨i, hi⟩)).symm
  have hd2 : lyrics.drop (i + 1) = [] :=
    List.drop_eq_nil_of_le (by omega)
  rw [hd1, hd2]
  rw [show findLyricScan time [lyrics.get ⟨i, hi⟩] (i0 + i) =
      (if time ≥ (lyrics.get ⟨i, hi⟩).startTime ∧ time ≤ (lyrics.get ⟨i, hi⟩).endTime
       then ((i0 + i : ℕ) : ℤ)
       else if time > (lyrics.get ⟨i, hi⟩).endTime then
         (if time ≤ (lyrics.get ⟨i, hi⟩).endTime + 2.0 then ((i0 + i : ℕ) : ℤ)
          else -1)
       else findLyricScan time [] (i0 + i + 1)) from rfl]
  rw [if_neg (fun hc => absurd hc.2 (not_le.mpr h1)), if_pos h1]

theorem findCurrentLyricIndex_eq_scan (time : ℝ) (lyrics : List LyricsLine)
    (hse : ∀ l ∈ lyrics, l.startTime ≤ l.endTime)
    (hch : List.Chain' (fun a b => a.endTime < b.startTime) lyrics)
    (i : ℕ) (hi : i < lyrics.length)
    (hst : (lyrics.get ⟨i, hi⟩).startTime ≤ time) :
    findCurrentLyricIndex lyrics time = findLyricScan time lyrics 0 := by
  cases lyrics with
  | nil => exact absurd hi (by simp)
  | cons first rest =>
    have h0 : first.startTime ≤ time := by
      have hmono := chain_start_le_start (first :: rest) hse hch 0 i
        (by simp) hi (Nat.zero_le i)
      exact le_trans hmono hst
    rw [show findCurrentLyricIndex (first :: rest) time =
      (if time < first.startTime then 0
       else findLyricScan time (first :: rest) 0) from rfl]
    rw [if_neg (not_lt.mpr h0)]

/-- Claim C5: the Timeline Indexer. Under the data-model assumptions that
each line has `startTime ≤ endTime` and consecutive lines are separated
(`endTime < next.startTime`): an empty timeline yields no active line; a
time before the first line's start yields index 0 (pre-announcement); a time
inside a line's `[startTime, endTime]` yields that line's index; a time past
a line's end but before the next line's start yields the just-ended line
while `t ≤ endTime + 0.5`, else the next line's index when the gap is
`≤ 3.0`, else none (`-1`); and past the final line's end, the final index
while `t ≤ endTime + 2.0`, else none. -/
theorem claim_C5 (lyrics : List LyricsLine) (time : ℝ)
    (hse : ∀ l ∈ lyrics, l.startTime ≤ l.endTime)
    (hch : List.Chain' (fun a b => a.endTime < b.startTime) lyrics) :
    (lyrics = [] → findCurrentLyricIndex lyrics time = -1) ∧
    (∀ (first : LyricsLine) (rest : List LyricsLine), lyrics = first :: rest →
      time < first.startTime → findCurrentLyricIndex lyrics time = 0) ∧
    (∀ (i : ℕ) (hi : i < lyrics.length),
      (lyrics.get ⟨i, hi⟩).startTime ≤ time →
      time ≤ (lyrics.get ⟨i, hi⟩).endTime →
      findCurrentLyricIndex lyrics time = (i : ℤ)) ∧
    (∀ (i : ℕ) (hi : i < lyrics.length) (hi1 : i + 1 < lyrics.length),
      time > (lyrics.get ⟨i, hi⟩).endTime →
      time < (lyrics.get ⟨i + 1, hi1⟩).startTime →
      findCurrentLyricIndex lyrics time =
        (if time ≤ (lyrics.get ⟨i, hi⟩).endTime + 0.5 then (i : ℤ)
         else if (lyrics.get ⟨i + 1, hi1⟩).startTime -
             (lyrics.get ⟨i, hi⟩).endTime ≤ 3.0 then (i : ℤ) + 1
         else -1)) ∧
    (∀ (i : ℕ) (hi : i < lyrics.length), i + 1 = lyrics.length →
      time > (lyrics.get ⟨i, hi⟩).endTime →
      findCurrentLyricIndex lyrics time =
        (if time ≤ (lyrics.get ⟨i, hi⟩).endTime + 2.0 then (i : ℤ) else -1)) := by
  have hwrap := findCurrentLyricIndex_eq_scan time lyrics hse hch
  refine ⟨?_, ?_, ?_, ?_, ?_⟩
  · intro h
    subst h
    rfl
  · intro first rest h hlt
    subst h
    rw [show findCurrentLyricIndex (first :: rest) time =
      (if time < first.startTime then 0
       else findLyricScan time (first :: rest) 0) from rfl]
    rw [if_pos hlt]
  · intro i hi h1 h2
    rw [hwrap i hi h1, findLyricScan_in_window time lyrics hse hch i hi 0 h1 h2]
    simp
  · intro i hi hi1 h1 h2
    have hst : (lyrics.get ⟨i, hi⟩).startTime ≤ time := by
      have hs := hse _ (List.get_mem lyrics i hi)
      linarith
    rw [hwrap i hi hst, findLyricScan_gap time lyrics hse hch i hi hi1 0 h1 h2]
    simp
  · intro i hi hlast h1
    have hst : (lyrics.get ⟨i, hi⟩).startTime ≤ time := by
      have hs := hse _ (List.get_mem lyrics i hi)
      linarith
    rw [hwrap i hi hst, findLyricScan_last time lyrics hse hch i hi hlast 0 h1]
    simp

theorem claim_C5_witness :
    findCurrentLyricIndex [⟨0, 5, []⟩, ⟨8, 12, []⟩] 5.3 = 0 := by
  have hse : ∀ l ∈ [(⟨0, 5, []⟩ : LyricsLine), ⟨8, 12, []⟩],
      l.startTime ≤ l.endTime := by
    intro l hl
    rcases List.mem_cons.mp hl with h | h
    · rw [h]; norm_num
    · rw [List.mem_singleton.mp h]; norm_num
  have hch : List.Chain' (fun a b => a.endTime < b.startTime)
      [(⟨0, 5, []⟩ : LyricsLine), ⟨8, 12, []⟩] := by
    rw [List.chain'_cons]
    exact ⟨by norm_num, List.chain'_singleton _⟩
  have h := (claim_C5 [⟨0, 5, []⟩, ⟨8, 12, []⟩] 5.3 hse hch).2.2.2.1 0
    (by norm_num) (by norm_num)
    (by norm_num : (5.3 : ℝ) > 5) (by norm_num : (5.3 : ℝ) < 8)
  have h2 : findCurrentLyricIndex [⟨0, 5, []⟩, ⟨8, 12, []⟩] 5.3 =
      (if (5.3 : ℝ) ≤ 5 + 0.5 then ((0 : ℕ) : ℤ)
       else if (8 : ℝ) - 5 ≤ 3.0 then ((0 : ℕ) : ℤ) + 1 else -1) := h
  rw [h2, if_pos (by norm_num)]
  rfl
